/-
Verification of the rmfile matching core (src/rmfile/core.py).

Modelling conventions:
* Python `str` is modelled as `PyStr := List Nat` — the sequence of Unicode
  code points.  `bytes` buffers are `Bytes := List Nat`.
* `hashlib.sha1()` objects are modelled by the byte sequence accumulated so
  far (`Sha1State`); the SHA-1 compression itself is an opaque parameter
  `sha1f : Bytes → Bytes` passed to every digest-producing function, since
  the claims are about how the code composes SHA-1, not about SHA-1 itself.
* `xlgcid.get_gcid_piece_size` is an external dependency and is likewise a
  parameter `pieceSize : Nat → Nat` (the spec requires it to be positive).
* The file system is a parameter `fs : PyStr → Option Bytes`: `fs path` is
  the readable content of `path`, or `none` when opening/`os.path.getsize`
  raises `OSError`.  A successful `open` is modelled as yielding the whole
  content, read by `readinto` in consecutive chunks of the buffer size.
* Python exceptions raised by the core are the constructors of `RmError`.
-/
import Mathlib

/-- A Python `str`: its sequence of Unicode code points. -/
abbrev PyStr := List Nat

/-- A Python `bytes` buffer: its sequence of byte values. -/
abbrev Bytes := List Nat

/-- Convenience: the code points of a Lean string literal. -/
def pyOfString (s : String) : PyStr := s.data.map Char.toNat

/-- `str.lower` on one code point (ASCII case map, as used for names/hex digests). -/
def pyLower1 (n : Nat) : Nat := if 65 ≤ n ∧ n ≤ 90 then n + 32 else n

/-- Python `str.lower()`. -/
def pyLower (s : PyStr) : PyStr := s.map pyLower1

/-- Python `str.isspace` on a code point (the ASCII whitespace stripped by `str.strip()`). -/
def pyIsSpace (n : Nat) : Bool := n = 32 || n = 9 || n = 10 || n = 13 || n = 11 || n = 12

/-- Python `str.strip()`: drop leading and trailing whitespace. -/
def pyStrip (s : PyStr) : PyStr :=
  ((s.dropWhile pyIsSpace).reverse.dropWhile pyIsSpace).reverse

/-- `os.path.basename`: the part of the path after the last `'/'` (code point 47). -/
def pyBasename (p : PyStr) : PyStr := (p.reverse.takeWhile (fun c => c ≠ 47)).reverse

/-- One lowercase hexadecimal digit, as a code point (`0`-`9`, `a`-`f`). -/
def hexDigit (n : Nat) : Nat := if n < 10 then 48 + n else 87 + n

/-- `bytes.hex()`: two lowercase hex digits per byte. -/
def bytesHex : Bytes → PyStr
  | [] => []
  | b :: rest => hexDigit (b / 16 % 16) :: hexDigit (b % 16) :: bytesHex rest

/-- Concatenation of a list of byte strings (`b"".join`-style). -/
def concatBytes (l : List Bytes) : Bytes := l.foldr (· ++ ·) []

/-- The dictionary key `'sha1'` used in `TestContext.hashs`. -/
def sha1Name : PyStr := pyOfString ("sha1")

/-- The dictionary key `'gcid'` (`_GcidHasher.name`) used in `TestContext.hashs`. -/
def gcidName : PyStr := pyOfString ("gcid")

/-- `dict.__getitem__`, returning `none` where Python raises `KeyError`. -/
def dictGet (m : List (PyStr × PyStr)) (k : PyStr) : Option PyStr :=
  match m with
  | [] => none
  | (k', v') :: rest => if k' = k then some v' else dictGet rest k

/-- `dict.__setitem__`: replace the binding of `k` if present, else append it. -/
def dictSet (m : List (PyStr × PyStr)) (k v : PyStr) : List (PyStr × PyStr) :=
  match m with
  | [] => [(k, v)]
  | (k', v') :: rest => if k' = k then (k, v) :: rest else (k', v') :: dictSet rest k v

/-- The exceptions the core can raise. -/
inductive RmError
  /-- `OSError` from `open`/`readinto`/`os.path.getsize`. -/
  | ioError
  /-- The `assert len(buf_sizes) == 1, 'TODO'` in `TestSets.__context_fill_hashs`. -/
  | assertBufSizes
  /-- The `assert self.__tests_sets` in `TestSets.test` / `TestSets.add`. -/
  | assertNonempty
  /-- `KeyError` from `ctx.hashs[...]` in `_read_value`. -/
  | keyError
  /-- `NotImplementedError` from the base `TestSet.get_content_hasher`. -/
  | notImplemented
deriving DecidableEq, Repr

/-- A `hashlib.sha1()` object: the bytes fed to it so far. -/
structure Sha1State where
  acc : Bytes
deriving DecidableEq, Repr

/-- `hashlib.sha1()`: fresh state. -/
def Sha1State.init : Sha1State := ⟨[]⟩

/-- `sha1.update(buf)`. -/
def Sha1State.update (s : Sha1State) (buf : Bytes) : Sha1State := ⟨s.acc ++ buf⟩

/-- `sha1.digest()`: SHA-1 of everything fed so far. -/
def Sha1State.digest (sha1f : Bytes → Bytes) (s : Sha1State) : Bytes := sha1f s.acc

/-- `_GcidHasher`: an inner `hashlib.sha1()` accumulating per-buffer SHA-1 digests. -/
structure GcidHasher where
  isha1 : Sha1State
deriving DecidableEq, Repr

/-- `_GcidHasher.__init__`. -/
def GcidHasher.init : GcidHasher := ⟨Sha1State.init⟩

/-- `_GcidHasher.update(buf)`: `self.__isha1.update(hashlib.sha1(buf).digest())`. -/
def GcidHasher.update (sha1f : Bytes → Bytes) (g : GcidHasher) (buf : Bytes) : GcidHasher :=
  ⟨g.isha1.update (sha1f buf)⟩

/-- `_GcidHasher.digest()`: `self.__isha1.digest()`. -/
def GcidHasher.digest (sha1f : Bytes → Bytes) (g : GcidHasher) : Bytes :=
  g.isha1.digest sha1f

/-- Helper for `chunks`: structural recursion on a fuel argument (the
remaining content length bounds the number of reads, since every non-final
read consumes at least one byte). -/
def chunksGo (P : Nat) : Nat → Bytes → List Bytes
  | _, [] => []
  | 0, _ :: _ => []
  | fuel + 1, c :: cs =>
      if P = 0 then []
      else (c :: cs).take P :: chunksGo P fuel ((c :: cs).drop P)

/-- The successive buffers delivered by `fp.readinto(buf)` with a buffer of
size `P` over content `content`: consecutive pieces of `P` bytes, the last one
holding the remainder; the loop stops at the first read returning `0` (so a
zero-sized buffer, like empty content, yields no reads). -/
def chunks (P : Nat) (content : Bytes) : List Bytes := chunksGo P content.length content

theorem chunksGo_congr (P : Nat) (f1 : Nat) :
    ∀ (f2 : Nat) (content : Bytes), content.length ≤ f1 → content.length ≤ f2 →
      chunksGo P f1 content = chunksGo P f2 content := by
  induction f1 with
  | zero =>
      intro f2 content h1 _
      have : content = [] := List.eq_nil_of_length_eq_zero (Nat.le_zero.mp h1)
      subst this
      cases f2 <;> rfl
  | succ f1' ih =>
      intro f2 content h1 h2
      cases content with
      | nil => cases f2 <;> rfl
      | cons c cs =>
          cases f2 with
          | zero => exact absurd h2 (by simp)
          | succ f2' =>
              rw [chunksGo, chunksGo]
              by_cases hP : P = 0
              · rw [if_pos hP, if_pos hP]
              · rw [if_neg hP, if_neg hP]
                have hlen : ((c :: cs).drop P).length ≤ cs.length := by
                  simp only [List.length_drop, List.length_cons]
                  omega
                have h1' : ((c :: cs).drop P).length ≤ f1' :=
                  le_trans hlen (Nat.succ_le_succ_iff.mp h1)
                have h2' : ((c :: cs).drop P).length ≤ f2' :=
                  le_trans hlen (Nat.succ_le_succ_iff.mp h2)
                rw [ih _ _ h1' h2']

theorem chunks_nil (P : Nat) : chunks P [] = [] := rfl

theorem chunks_cons (P : Nat) (content : Bytes) (hP : P ≠ 0) (hc : content ≠ []) :
    chunks P content = content.take P :: chunks P (content.drop P) := by
  cases content with
  | nil => exact absurd rfl hc
  | cons c cs =>
      show chunksGo P (cs.length + 1) (c :: cs)
        = (c :: cs).take P :: chunksGo P ((c :: cs).drop P).length ((c :: cs).drop P)
      rw [chunksGo, if_neg hP]
      congr 1
      refine chunksGo_congr P cs.length _ _ ?_ le_rfl
      simp only [List.length_drop, List.length_cons]
      omega

/-- Feeding a `_GcidHasher` a list of buffers accumulates the concatenation of
their SHA-1 digests in the inner hasher. -/
theorem gcid_fold_acc (sha1f : Bytes → Bytes) (pieces : List Bytes) (g : GcidHasher) :
    ((pieces.foldl (fun h buf => h.update sha1f buf) g).isha1).acc
      = g.isha1.acc ++ concatBytes (pieces.map sha1f) := by
  induction pieces generalizing g with
  | nil => simp [concatBytes]
  | cons p ps ih =>
      rw [List.foldl_cons, ih]
      simp [GcidHasher.update, Sha1State.update, concatBytes, List.append_assoc]

/-- The four concrete `TestSet` subclasses of core.py. -/
inductive TSKind
  | name
  | iname
  | sha1
  | gcid
deriving DecidableEq, Repr

/-- `TestContext`: the per-file state, `path` plus the `hashs` dictionary. -/
structure TestContext where
  path : PyStr
  hashs : List (PyStr × PyStr)
deriving DecidableEq, Repr

/-- A `TestSet` instance: its concrete class, `name`, `_dataset` and `_adding_rows`. -/
structure TestSet where
  kind : TSKind
  name : PyStr
  dataset : Finset PyStr
  addingRows : Finset PyStr
deriving DecidableEq

/-- `TestSet._parpare_set` as defined on the base class: strip every line,
discard the empty string. -/
def parpareSetBase (lines : List PyStr) : Finset PyStr :=
  ((lines.map pyStrip).toFinset).erase []

/-- `_parpare_set` with the subclass overrides: `INameTestSet`, `Sha1TestSet`
and `GcidTestSet` additionally lower-case every value of the base set. -/
def parpareSet (kind : TSKind) (lines : List PyStr) : Finset PyStr :=
  match kind with
  | .name => parpareSetBase lines
  | _ => (parpareSetBase lines).image pyLower

/-- `TestSet.__init__`: seed `_dataset` from the lines, start `_adding_rows` empty. -/
def TestSet.make (kind : TSKind) (name : PyStr) (lines : List PyStr) : TestSet :=
  ⟨kind, name, parpareSet kind lines, ∅⟩

/-- `_read_value` of each subclass; `none` models the `KeyError` raised when a
content digest is looked up in `ctx.hashs` before it was filled. -/
def TestSet.readValue (ts : TestSet) (ctx : TestContext) : Option PyStr :=
  match ts.kind with
  | .name => some (pyBasename ctx.path)
  | .iname => some (pyLower (pyBasename ctx.path))
  | .sha1 => (dictGet ctx.hashs sha1Name).map pyLower
  | .gcid => (dictGet ctx.hashs gcidName).map pyLower

/-- `TestSet.test`: membership of the derived value in `_dataset`. -/
def TestSet.test (ts : TestSet) (ctx : TestContext) : Option Bool :=
  (ts.readValue ctx).map (fun v => v ∈ ts.dataset)

/-- `TestSet.add`: insert the derived value into `_adding_rows` unless it is
already accepted. -/
def TestSet.add (ts : TestSet) (ctx : TestContext) : Option TestSet :=
  (ts.readValue ctx).map
    (fun v => if v ∈ ts.dataset then ts else { ts with addingRows := insert v ts.addingRows })

/-- `TestSet.adding_rows`. -/
def TestSet.adding_rows (ts : TestSet) : List PyStr :=
  ts.addingRows.sort (· ≤ ·)

/-- `TestSet.all_rows`: `list(sorted(self._dataset | self._adding_rows))`. -/
def TestSet.all_rows (ts : TestSet) : List PyStr :=
  (ts.dataset ∪ ts.addingRows).sort (· ≤ ·)

/-- `TestSet.is_test_content`: the property overridden to `True` by
`Sha1TestSet` and `GcidTestSet`. -/
def TestSet.isTestContent (ts : TestSet) : Bool :=
  match ts.kind with
  | .sha1 => true
  | .gcid => true
  | _ => false

/-- `get_buffer_size`: only `GcidTestSet` overrides it, returning
`xlgcid.get_gcid_piece_size(os.path.getsize(path))`; `os.path.getsize` raises
`OSError` when the file is not accessible. -/
def TestSet.getBufferSize (pieceSize : Nat → Nat) (fs : PyStr → Option Bytes)
    (ts : TestSet) (path : PyStr) : Except RmError (Option Nat) :=
  match ts.kind with
  | .gcid =>
      match fs path with
      | some content => .ok (some (pieceSize content.length))
      | none => .error .ioError
  | _ => .ok none

/-- A `ContentHasher` in flight: either a `hashlib.sha1()` or a `_GcidHasher`. -/
inductive Hasher
  | sha1h (s : Sha1State)
  | gcidh (g : GcidHasher)
deriving DecidableEq, Repr

/-- `ContentHasher.update`. -/
def Hasher.update (sha1f : Bytes → Bytes) : Hasher → Bytes → Hasher
  | .sha1h s, buf => .sha1h (s.update buf)
  | .gcidh g, buf => .gcidh (g.update sha1f buf)

/-- `ContentHasher.name` (`hashlib.sha1().name = 'sha1'`, `_GcidHasher.name = 'gcid'`). -/
def Hasher.name : Hasher → PyStr
  | .sha1h _ => sha1Name
  | .gcidh _ => gcidName

/-- `ContentHasher.digest`. -/
def Hasher.digest (sha1f : Bytes → Bytes) : Hasher → Bytes
  | .sha1h s => s.digest sha1f
  | .gcidh g => g.digest sha1f

/-- `get_content_hasher`: defined only on the two content subclasses; `none`
models the `NotImplementedError` of the base class. -/
def TestSet.getContentHasher (ts : TestSet) : Option Hasher :=
  match ts.kind with
  | .sha1 => some (.sha1h Sha1State.init)
  | .gcid => some (.gcidh GcidHasher.init)
  | _ => none

/-- `io.DEFAULT_BUFFER_SIZE` (CPython). -/
def defaultBufferSize : Nat := 8192

/-- `TestSets`: the evaluator over a list of `TestSet`s. -/
structure TestSets where
  testsSets : List TestSet
deriving DecidableEq

/-- The `__metadata_tests_sets` partition computed in `TestSets.__init__`. -/
def TestSets.metadataTestsSets (tss : TestSets) : List TestSet :=
  tss.testsSets.filter (fun ts => !ts.isTestContent)

/-- The `__content_tests_sets` partition computed in `TestSets.__init__`. -/
def TestSets.contentTestsSets (tss : TestSets) : List TestSet :=
  tss.testsSets.filter (fun ts => ts.isTestContent)

/-- The `buf_sizes` list comprehension of `__context_fill_hashs`:
`[bz for bz in (ts.get_buffer_size(ctx.path) for ts in tss) if bz]` —
note that Python's `if bz` drops both `None` and `0`. -/
def collectBufSizes (pieceSize : Nat → Nat) (fs : PyStr → Option Bytes)
    (cts : List TestSet) (path : PyStr) : Except RmError (List Nat) := do
  let hints ← cts.mapM (fun ts => ts.getBufferSize pieceSize fs path)
  Except.ok ((hints.filterMap id).filter (fun bz => bz ≠ 0))

/-- The buffer-size decision of `__context_fill_hashs`: empty list of hints →
`io.DEFAULT_BUFFER_SIZE`; otherwise `assert len(buf_sizes) == 1` then
`buf_sizes[0]`. -/
def pickBufSize (bufSizes : List Nat) : Except RmError Nat :=
  match bufSizes with
  | [] => .ok defaultBufferSize
  | [bz] => .ok bz
  | _ => .error .assertBufSizes

/-- `TestSets.__context_fill_hashs`: when content test sets exist, choose the
buffer size, create one hasher per content set, read the file feeding every
hasher each buffer in order, then store every digest (hex, lower-cased) in
`ctx.hashs` keyed by the hasher's name. -/
def TestSets.contextFillHashs (sha1f : Bytes → Bytes) (pieceSize : Nat → Nat)
    (fs : PyStr → Option Bytes) (tss : TestSets) (ctx : TestContext) :
    Except RmError TestContext :=
  if tss.contentTestsSets = [] then .ok ctx
  else do
    let bufSizes ← collectBufSizes pieceSize fs tss.contentTestsSets ctx.path
    let bufSize ← pickBufSize bufSizes
    let hashers ← tss.contentTestsSets.mapM (fun ts =>
      match ts.getContentHasher with
      | some h => Except.ok h
      | none => Except.error RmError.notImplemented)
    match fs ctx.path with
    | none => Except.error RmError.ioError
    | some content =>
        let finalHashers := (chunks bufSize content).foldl
          (fun hs buf => hs.map (fun h => h.update sha1f buf)) hashers
        Except.ok ⟨ctx.path,
          finalHashers.foldl
            (fun m h => dictSet m h.name (pyLower (bytesHex (h.digest sha1f))))
            ctx.hashs⟩

/-- Python's `all(ts.test(ctx) for ts in sets)`: lazily test each set,
stopping at the first `False`; a `KeyError` in an evaluated test propagates. -/
def testAll (sets : List TestSet) (ctx : TestContext) : Except RmError Bool :=
  match sets with
  | [] => .ok true
  | ts :: rest =>
      match ts.test ctx with
      | none => .error .keyError
      | some false => .ok false
      | some true => testAll rest ctx

/-- `TestSets.test`: assert the set list is non-empty, test metadata sets
first, then fill the digests and test the content sets. -/
def TestSets.test (sha1f : Bytes → Bytes) (pieceSize : Nat → Nat)
    (fs : PyStr → Option Bytes) (tss : TestSets) (path : PyStr) :
    Except RmError Bool :=
  if tss.testsSets = [] then .error .assertNonempty else do
    let mOk ← testAll tss.metadataTestsSets ⟨path, []⟩
    if !mOk then Except.ok false else do
      let ctx' ← tss.contextFillHashs sha1f pieceSize fs ⟨path, []⟩
      let cOk ← testAll tss.contentTestsSets ctx'
      Except.ok cOk

/-- The `[ts.add(ctx) for ts in self.__tests_sets]` loop of `TestSets.add`. -/
def addList (ctx : TestContext) : List TestSet → Except RmError (List TestSet)
  | [] => .ok []
  | ts :: rest =>
      match ts.add ctx with
      | none => .error .keyError
      | some ts' => (addList ctx rest).map (ts' :: ·)

/-- `TestSets.add`: assert the set list is non-empty, fill the digests
unconditionally, then call `add` on every set. -/
def TestSets.add (sha1f : Bytes → Bytes) (pieceSize : Nat → Nat)
    (fs : PyStr → Option Bytes) (tss : TestSets) (path : PyStr) :
    Except RmError TestSets :=
  if tss.testsSets = [] then .error .assertNonempty else do
    let ctx' ← tss.contextFillHashs sha1f pieceSize fs ⟨path, []⟩
    let sets' ← addList ctx' tss.testsSets
    Except.ok ⟨sets'⟩

/-- The states a `TestSet` can be in: freshly constructed from seed lines, or
the result of any sequence of successful `add` calls. -/
inductive TestSet.Reachable : TestSet → Prop
  | make (kind : TSKind) (name : PyStr) (lines : List PyStr) :
      Reachable (TestSet.make kind name lines)
  | step (ts : TestSet) (ctx : TestContext) (ts' : TestSet) :
      Reachable ts → ts.add ctx = some ts' → Reachable ts'

theorem reachable_disjoint (ts : TestSet) (h : ts.Reachable) :
    Disjoint ts.dataset ts.addingRows := by
  induction h with
  | make kind name lines => simp [TestSet.make]
  | step ts ctx ts' _ hadd ih =>
      unfold TestSet.add at hadd
      cases hv : ts.readValue ctx with
      | none => simp [hv] at hadd
      | some v =>
          simp only [hv, Option.map_some', Option.some_inj] at hadd
          by_cases hmem : v ∈ ts.dataset
          · rw [if_pos hmem] at hadd
            exact hadd ▸ ih
          · rw [if_neg hmem] at hadd
            subst hadd
            exact Finset.disjoint_insert_right.mpr ⟨hmem, ih⟩

/-- C5: over any sequence of `add` operations starting from construction, the
accepted set `_dataset` and the observed set `_adding_rows` stay disjoint, and
`all_rows` is exactly their union, lexicographically sorted without
duplicates. -/
theorem pattern_set_invariant (ts : TestSet) (h : ts.Reachable) :
    Disjoint ts.dataset ts.addingRows
    ∧ ts.all_rows.Sorted (· ≤ ·)
    ∧ ts.all_rows.Nodup
    ∧ (∀ x, x ∈ ts.all_rows ↔ (x ∈ ts.dataset ∨ x ∈ ts.addingRows)) := by
  refine ⟨reachable_disjoint ts h, ?_, ?_, ?_⟩
  · simp only [TestSet.all_rows]
    exact Finset.sort_sorted _ _
  · simp only [TestSet.all_rows]
    exact Finset.sort_nodup _ _
  · intro x
    simp only [TestSet.all_rows, Finset.mem_sort, Finset.mem_union]

/-- Witness for C5: a freshly built name set, with the union membership
property instantiated at its single seed value. -/
theorem pattern_set_invariant_witness :
    Disjoint (TestSet.make .name (pyOfString ("n")) [pyOfString ("a")]).dataset
      (TestSet.make .name (pyOfString ("n")) [pyOfString ("a")]).addingRows
    ∧ (pyOfString ("a") ∈ (TestSet.make .name (pyOfString ("n")) [pyOfString ("a")]).all_rows
        ↔ (pyOfString ("a") ∈ (TestSet.make .name (pyOfString ("n")) [pyOfString ("a")]).dataset
            ∨ pyOfString ("a") ∈ (TestSet.make .name (pyOfString ("n")) [pyOfString ("a")]).addingRows)) :=
  ⟨(pattern_set_invariant _ (.make _ _ _)).1,
   (pattern_set_invariant _ (.make _ _ _)).2.2.2 _⟩

/-- C1: feeding the `_GcidHasher` the file content in consecutive pieces of
the size `PieceSizePolicy` assigns to the file's length makes its final digest
SHA-1 of the concatenation of the per-piece SHA-1 digests, in file order; for
empty content there are no pieces and the result is SHA-1 of the empty byte
sequence. -/
theorem gcid_digest_two_level (sha1f : Bytes → Bytes) (pieceSize : Nat → Nat)
    (content : Bytes) (hP : 0 < pieceSize content.length) :
    (((chunks (pieceSize content.length) content).foldl
        (fun g buf => g.update sha1f buf) GcidHasher.init).digest sha1f
      = sha1f (concatBytes ((chunks (pieceSize content.length) content).map sha1f)))
    ∧ (content = [] →
        ((chunks (pieceSize content.length) content).foldl
          (fun g buf => g.update sha1f buf) GcidHasher.init).digest sha1f = sha1f []) := by
  have hdig : ∀ pieces : List Bytes,
      ((pieces.foldl (fun g buf => g.update sha1f buf) GcidHasher.init).digest sha1f)
        = sha1f (concatBytes (pieces.map sha1f)) := by
    intro pieces
    simp [GcidHasher.digest, Sha1State.digest, gcid_fold_acc, GcidHasher.init, Sha1State.init]
  refine ⟨hdig _, ?_⟩
  intro hnil
  subst hnil
  simp [chunks_nil, GcidHasher.digest, Sha1State.digest, GcidHasher.init, Sha1State.init]

/-- Witness for C1: piece size 2, content `[1, 2, 3]`, SHA-1 modelled by the
length function. -/
theorem gcid_digest_two_level_witness :
    (0 < (fun _ : Nat => 2) ([1, 2, 3] : Bytes).length)
    ∧ (((chunks ((fun _ : Nat => 2) ([1, 2, 3] : Bytes).length) [1, 2, 3]).foldl
          (fun g buf => g.update (fun b => [b.length]) buf) GcidHasher.init).digest
            (fun b => [b.length])
        = (fun b : Bytes => [b.length])
            (concatBytes ((chunks ((fun _ : Nat => 2) ([1, 2, 3] : Bytes).length)
              [1, 2, 3]).map (fun b => [b.length])))) :=
  ⟨by decide,
   (gcid_digest_two_level (fun b => [b.length]) (fun _ => 2) [1, 2, 3] (by decide)).1⟩

/-- Membership in the lower-cased accepted set of the `INameTestSet`,
`Sha1TestSet` and `GcidTestSet` variants. -/
theorem mem_image_parpareSetBase (lines : List PyStr) (x : PyStr) :
    x ∈ (parpareSetBase lines).image pyLower
      ↔ x ≠ [] ∧ ∃ l ∈ lines, x = pyLower (pyStrip l) := by
  simp only [parpareSetBase, Finset.mem_image, Finset.mem_erase,
    List.mem_toFinset, List.mem_map]
  constructor
  · rintro ⟨y, ⟨hy0, l, hl, hy⟩, hlow⟩
    refine ⟨?_, l, hl, by rw [hy, hlow]⟩
    intro hx0
    subst hlow
    exact hy0 (List.map_eq_nil_iff.mp hx0)
  · rintro ⟨hx0, l, hl, hx⟩
    refine ⟨pyStrip l, ⟨?_, l, hl, rfl⟩, hx.symm⟩
    intro hsn
    rw [hsn] at hx
    exact hx0 (by simp [hx, pyLower])

/-- C6: every variant's accepted set consists of the seed lines stripped of
surrounding whitespace with empty results discarded; the case-insensitive name
variant (like the two digest variants) additionally lower-cases every seed,
and derives lower-cased values; the concrete seed
`["abc.txt", "", "  def.txt  "]` yields `{"abc.txt", "def.txt"}` for both name
variants. -/
theorem seed_normalization :
    (∀ nm lines x, x ∈ (TestSet.make .name nm lines).dataset
        ↔ x ≠ [] ∧ ∃ l ∈ lines, x = pyStrip l)
    ∧ (∀ nm lines x, x ∈ (TestSet.make .iname nm lines).dataset
        ↔ x ≠ [] ∧ ∃ l ∈ lines, x = pyLower (pyStrip l))
    ∧ (∀ nm lines x, x ∈ (TestSet.make .sha1 nm lines).dataset
        ↔ x ≠ [] ∧ ∃ l ∈ lines, x = pyLower (pyStrip l))
    ∧ (∀ nm lines x, x ∈ (TestSet.make .gcid nm lines).dataset
        ↔ x ≠ [] ∧ ∃ l ∈ lines, x = pyLower (pyStrip l))
    ∧ (∀ nm lines ctx, (TestSet.make .iname nm lines).readValue ctx
        = some (pyLower (pyBasename ctx.path)))
    ∧ ((TestSet.make .name (pyOfString ("n"))
          [pyOfString ("abc.txt"), pyOfString (""), pyOfString ("  def.txt  ")]).dataset
        = {pyOfString ("abc.txt"), pyOfString ("def.txt")})
    ∧ ((TestSet.make .iname (pyOfString ("n"))
          [pyOfString ("abc.txt"), pyOfString (""), pyOfString ("  def.txt  ")]).dataset
        = {pyOfString ("abc.txt"), pyOfString ("def.txt")}) := by
  refine ⟨?_,
    fun nm lines x => mem_image_parpareSetBase lines x,
    fun nm lines x => mem_image_parpareSetBase lines x,
    fun nm lines x => mem_image_parpareSetBase lines x,
    fun nm lines ctx => rfl, by decide, by decide⟩
  intro nm lines x
  simp only [TestSet.make, parpareSet, parpareSetBase, Finset.mem_erase,
    List.mem_toFinset, List.mem_map]
  constructor
  · rintro ⟨hne, l, hl, hx⟩
    exact ⟨hne, l, hl, hx.symm⟩
  · rintro ⟨hne, l, hl, hx⟩
    exact ⟨hne, l, hl, hx.symm⟩

theorem except_bind_ok {α β ε : Type} (a : α) (f : α → Except ε β) :
    (Except.ok a : Except ε α) >>= f = f a := rfl

theorem except_bind_error {α β ε : Type} (e : ε) (f : α → Except ε β) :
    (Except.error e : Except ε α) >>= f = Except.error e := rfl

theorem testAll_ok_true_iff (sets : List TestSet) (ctx : TestContext) :
    testAll sets ctx = .ok true ↔ ∀ ts ∈ sets, ts.test ctx = some true := by
  induction sets with
  | nil => simp [testAll]
  | cons ts rest ih =>
      rw [testAll]
      cases h : ts.test ctx with
      | none => simp [h, List.forall_mem_cons]
      | some b =>
          cases b with
          | false => simp [h, List.forall_mem_cons]
          | true => simp [h, List.forall_mem_cons, ih]

theorem testAll_ok_false (sets : List TestSet) (ctx : TestContext)
    (hall : ∀ ts ∈ sets, (ts.test ctx).isSome)
    (hex : ∃ ts ∈ sets, ts.test ctx = some false) :
    testAll sets ctx = .ok false := by
  induction sets with
  | nil => rcases hex with ⟨ts, hmem, _⟩; cases hmem
  | cons ts rest ih =>
      rw [testAll]
      cases h : ts.test ctx with
      | none =>
          have := hall ts (List.mem_cons_self ts rest)
          rw [h] at this
          cases this
      | some b =>
          cases b with
          | false => rfl
          | true =>
              refine ih (fun t ht => hall t (List.mem_cons_of_mem ts ht)) ?_
              rcases hex with ⟨t, hmem, hfalse⟩
              rcases List.mem_cons.mp hmem with heq | hmemr
              · rw [heq] at hfalse
                rw [hfalse] at h
                cases h
              · exact ⟨t, hmemr, hfalse⟩

/-- Members of the metadata partition are `NameTestSet` or `INameTestSet`. -/
theorem metadata_kind (tss : TestSets) (ts : TestSet)
    (h : ts ∈ tss.metadataTestsSets) : ts.kind = .name ∨ ts.kind = .iname := by
  rw [TestSets.metadataTestsSets, List.mem_filter] at h
  rcases h with ⟨_, hflag⟩
  cases hk : ts.kind <;>
    simp [TestSet.isTestContent, hk] at hflag ⊢

/-- Members of the content partition are `Sha1TestSet` or `GcidTestSet`. -/
theorem content_kind (tss : TestSets) (ts : TestSet)
    (h : ts ∈ tss.contentTestsSets) : ts.kind = .sha1 ∨ ts.kind = .gcid := by
  rw [TestSets.contentTestsSets, List.mem_filter] at h
  rcases h with ⟨_, hflag⟩
  cases hk : ts.kind <;>
    simp [TestSet.isTestContent, hk] at hflag ⊢

/-- Metadata variants derive their value from the path alone, so their test
never raises `KeyError`. -/
theorem metadata_test_isSome (ts : TestSet) (ctx : TestContext)
    (h : ts.kind = .name ∨ ts.kind = .iname) : (ts.test ctx).isSome := by
  rcases h with h | h <;>
    simp [TestSet.test, TestSet.readValue, h]

/-- C3: if any metadata-only set rejects the file, `TestSets.test` returns
`False` under every file system, SHA-1 oracle and piece-size policy — in
particular even when the file's bytes are unreadable — so the content-hashing
step is never exercised. -/
theorem metadata_short_circuit (sha1f : Bytes → Bytes) (pieceSize : Nat → Nat)
    (fs : PyStr → Option Bytes) (tss : TestSets) (path : PyStr) (ts0 : TestSet)
    (hmem : ts0 ∈ tss.metadataTestsSets)
    (hfail : ts0.test ⟨path, []⟩ = some false) :
    tss.test sha1f pieceSize fs path = .ok false := by
  have hne : tss.testsSets ≠ [] := by
    intro h0
    rw [TestSets.metadataTestsSets, h0] at hmem
    cases hmem
  have hm : testAll tss.metadataTestsSets ⟨path, []⟩ = .ok false :=
    testAll_ok_false _ _
      (fun t ht => metadata_test_isSome t _ (metadata_kind tss t ht))
      ⟨ts0, hmem, hfail⟩
  rw [TestSets.test, if_neg hne, hm, except_bind_ok]
  rfl

/-- Witness for C3: a name set with empty accepted set rejects `/tmp/x`, and
`test` returns `False` even though the file system can read nothing. -/
theorem metadata_short_circuit_witness :
    TestSets.test (fun b => [b.length]) (fun _ => 2) (fun _ => none)
      ⟨[TestSet.make .name (pyOfString ("n")) []]⟩ (pyOfString ("/tmp/x"))
      = .ok false :=
  metadata_short_circuit _ _ _ _ _ (TestSet.make .name (pyOfString ("n")) [])
    (by decide) (by decide)

/-- C2: when the content digests can be computed (the fill step succeeds with
context `ctx'`), `TestSets.test` returns `True` exactly when every
metadata-only set's test passes on the bare context and every content-based
set's test passes against the computed digests. -/
theorem matches_iff_all_pass (sha1f : Bytes → Bytes) (pieceSize : Nat → Nat)
    (fs : PyStr → Option Bytes) (tss : TestSets) (path : PyStr)
    (ctx' : TestContext) (hne : tss.testsSets ≠ [])
    (hfill : tss.contextFillHashs sha1f pieceSize fs ⟨path, []⟩ = .ok ctx') :
    tss.test sha1f pieceSize fs path = .ok true
      ↔ ((∀ ts ∈ tss.metadataTestsSets, ts.test ⟨path, []⟩ = some true)
          ∧ (∀ ts ∈ tss.contentTestsSets, ts.test ctx' = some true)) := by
  rw [TestSets.test, if_neg hne]
  constructor
  · intro h
    cases hm : testAll tss.metadataTestsSets ⟨path, []⟩ with
    | error e =>
        rw [hm, except_bind_error] at h
        cases h
    | ok b =>
        rw [hm, except_bind_ok] at h
        cases b with
        | false => cases h
        | true =>
            rw [if_neg (by simp : ¬((!true) = true))] at h
            rw [hfill, except_bind_ok] at h
            cases hc : testAll tss.contentTestsSets ctx' with
            | error e =>
                rw [hc, except_bind_error] at h
                cases h
            | ok c =>
                rw [hc, except_bind_ok] at h
                cases c with
                | false => cases h
                | true =>
                    exact ⟨(testAll_ok_true_iff _ _).mp hm,
                           (testAll_ok_true_iff _ _).mp hc⟩
  · rintro ⟨h1, h2⟩
    rw [(testAll_ok_true_iff _ _).mpr h1, except_bind_ok]
    show (do
      let ctx'' ← tss.contextFillHashs sha1f pieceSize fs ⟨path, []⟩
      let cOk ← testAll tss.contentTestsSets ctx''
      Except.ok cOk) = Except.ok true
    rw [hfill, except_bind_ok, (testAll_ok_true_iff _ _).mpr h2, except_bind_ok]

/-- Witness for C2: a single name set whose seed matches the path's base name;
the fill step is trivial (no content sets) and `test` returns `True`. -/
theorem matches_iff_all_pass_witness :
    TestSets.test (fun b => [b.length]) (fun _ => 2) (fun _ => none)
      ⟨[TestSet.make .name (pyOfString ("n")) [pyOfString ("abc.txt")]]⟩
      (pyOfString ("/tmp/abc.txt")) = .ok true
      ↔ ((∀ ts ∈ (TestSets.mk [TestSet.make .name (pyOfString ("n"))
              [pyOfString ("abc.txt")]]).metadataTestsSets,
            ts.test ⟨pyOfString ("/tmp/abc.txt"), []⟩ = some true)
          ∧ (∀ ts ∈ (TestSets.mk [TestSet.make .name (pyOfString ("n"))
              [pyOfString ("abc.txt")]]).contentTestsSets,
            ts.test ⟨pyOfString ("/tmp/abc.txt"), []⟩ = some true)) :=
  matches_iff_all_pass _ _ _ _ _ ⟨pyOfString ("/tmp/abc.txt"), []⟩
    (by decide) rfl

/-- C9: if filling the digests fails (file unreadable, `os.path.getsize`
failure, or the buffer-size assert), `TestSets.add` propagates that very error
and produces no updated pattern sets — no `add` is reached, so every set's
accepted and observed values are untouched. -/
theorem observe_atomic_on_error (sha1f : Bytes → Bytes) (pieceSize : Nat → Nat)
    (fs : PyStr → Option Bytes) (tss : TestSets) (path : PyStr) (e : RmError)
    (hne : tss.testsSets ≠ [])
    (hfill : tss.contextFillHashs sha1f pieceSize fs ⟨path, []⟩ = .error e) :
    tss.add sha1f pieceSize fs path = .error e := by
  rw [TestSets.add, if_neg hne, hfill, except_bind_error]

/-- Witness for C9: one gcid set over an unreadable file system — `add` fails
with the I/O error raised while sizing the file. -/
theorem observe_atomic_on_error_witness :
    TestSets.add (fun b => [b.length]) (fun _ => 2) (fun _ => none)
      ⟨[TestSet.make .gcid (pyOfString ("g")) []]⟩ (pyOfString ("/tmp/x"))
      = .error .ioError :=
  observe_atomic_on_error _ _ _ _ _ .ioError (by decide) rfl

/-- Building one hasher per content test set never hits the base class's
`NotImplementedError`: every member of the list is a content variant. -/
theorem hashers_mapM_eq (l : List TestSet)
    (hmem : ∀ ts ∈ l, ts.kind = .sha1 ∨ ts.kind = .gcid) :
    (l.mapM (fun ts =>
        match ts.getContentHasher with
        | some h => Except.ok h
        | none => Except.error RmError.notImplemented)
      : Except RmError (List Hasher)) = .ok (l.filterMap TestSet.getContentHasher) := by
  induction l with
  | nil => rfl
  | cons a as ih =>
      have ha := hmem a (List.mem_cons_self a as)
      have ih' := ih (fun t ht => hmem t (List.mem_cons_of_mem a ht))
      rw [List.mapM_cons, ih']
      rcases ha with hk | hk <;>
      · simp only [TestSet.getContentHasher, hk, List.filterMap_cons]
        rfl

/-- C4 counterexample: two active `GcidTestSet`s report the same non-empty
buffer hint `2` — exactly one distinct value — yet `__context_fill_hashs`
fails with `assert len(buf_sizes) == 1`, because the assert counts collected
hints per variant, not distinct values. -/
theorem bufsize_conflict_counterexample :
    (collectBufSizes (fun _ => 2) (fun _ => some [1, 2, 3, 4])
        (TestSets.mk [TestSet.make .gcid (pyOfString ("g")) [],
          TestSet.make .gcid (pyOfString ("g2")) []]).contentTestsSets
        (pyOfString ("/tmp/a")) = .ok [2, 2])
    ∧ (TestSets.contextFillHashs (fun b => [b.length]) (fun _ => 2)
        (fun _ => some [1, 2, 3, 4])
        ⟨[TestSet.make .gcid (pyOfString ("g")) [],
          TestSet.make .gcid (pyOfString ("g2")) []]⟩
        ⟨pyOfString ("/tmp/a"), []⟩ = .error .assertBufSizes) :=
  ⟨rfl, rfl⟩

/-- C4 amended: the inspection fails with the buffer-size assertion exactly
when the content sets produce two or more non-empty buffer hints, counted per
variant (equal values still conflict); a single collected hint is used as the
read buffer size, and no hints means `io.DEFAULT_BUFFER_SIZE` is used. -/
theorem bufsize_policy (sha1f : Bytes → Bytes) (pieceSize : Nat → Nat)
    (fs : PyStr → Option Bytes) (tss : TestSets) (path : PyStr) (l : List Nat)
    (hcts : tss.contentTestsSets ≠ [])
    (hcol : collectBufSizes pieceSize fs tss.contentTestsSets path = .ok l) :
    (tss.contextFillHashs sha1f pieceSize fs ⟨path, []⟩ = .error .assertBufSizes
      ↔ 2 ≤ l.length)
    ∧ (∀ bz, l = [bz] → pickBufSize l = .ok bz)
    ∧ (l = [] → pickBufSize l = .ok defaultBufferSize) := by
  have hhash := hashers_mapM_eq tss.contentTestsSets
    (fun t ht => content_kind tss t ht)
  refine ⟨?_, ?_, ?_⟩
  · rw [TestSets.contextFillHashs, if_neg hcts]
    dsimp only
    rw [hcol, except_bind_ok]
    match l with
    | [] =>
        rw [show pickBufSize [] = .ok defaultBufferSize from rfl, except_bind_ok,
          hhash, except_bind_ok]
        cases hfs : fs path <;> simp
    | [bz] =>
        rw [show pickBufSize [bz] = .ok bz from rfl, except_bind_ok,
          hhash, except_bind_ok]
        cases hfs : fs path <;> simp
    | a :: b :: rest =>
        rw [show pickBufSize (a :: b :: rest) = .error .assertBufSizes from rfl,
          except_bind_error]
        simp
  · intro bz hl
    rw [hl]
    rfl
  · intro hl
    rw [hl]
    rfl

/-- Witness for C4 (amended): two gcid sets collect `[2, 2]`; the conjunction
is checked at that concrete input. -/
theorem bufsize_policy_witness :
    ((TestSets.contextFillHashs (fun b => [b.length]) (fun _ => 2)
        (fun _ => some [1, 2, 3, 4])
        ⟨[TestSet.make .gcid (pyOfString ("g3")) [],
          TestSet.make .gcid (pyOfString ("g4")) []]⟩
        ⟨pyOfString ("/tmp/b"), []⟩ = .error .assertBufSizes
      ↔ 2 ≤ ([2, 2] : List Nat).length)
    ∧ (∀ bz, ([2, 2] : List Nat) = [bz] → pickBufSize [2, 2] = .ok bz)
    ∧ (([2, 2] : List Nat) = [] → pickBufSize [2, 2] = .ok defaultBufferSize)) :=
  bufsize_policy _ _ _ _ _ [2, 2] (by decide) rfl

theorem dictGet_dictSet_self (m : List (PyStr × PyStr)) (k v : PyStr) :
    dictGet (dictSet m k v) k = some v := by
  induction m with
  | nil => simp [dictSet, dictGet]
  | cons p rest ih =>
      rw [dictSet]
      by_cases hpk : p.1 = k
      · rw [if_pos hpk, dictGet, if_pos rfl]
      · rw [if_neg hpk, dictGet, if_neg hpk, ih]

theorem dictGet_isSome_dictSet (m : List (PyStr × PyStr)) (k k' v : PyStr)
    (h : (dictGet m k).isSome) : (dictGet (dictSet m k' v) k).isSome := by
  induction m with
  | nil => rw [dictGet] at h; cases h
  | cons p rest ih =>
      rw [dictGet] at h
      rw [dictSet]
      by_cases hpk : p.1 = k'
      · rw [if_pos hpk, dictGet]
        by_cases hkk : k' = k
        · rw [if_pos hkk]; rfl
        · rw [if_neg hkk]
          rw [if_neg (hpk ▸ hkk)] at h
          exact h
      · rw [if_neg hpk, dictGet]
        by_cases hk : p.1 = k
        · rw [if_pos hk]; rfl
        · rw [if_neg hk]
          rw [if_neg hk] at h
          exact ih h

/-- Keys survive the digest-storing fold: once a hasher with name `k` is in
the list, the final `ctx.hashs` has an entry for `k`. -/
theorem dictGet_foldl_isSome (f : Hasher → PyStr) (hs : List Hasher)
    (m0 : List (PyStr × PyStr)) (k : PyStr)
    (h : k ∈ hs.map Hasher.name ∨ (dictGet m0 k).isSome) :
    (dictGet (hs.foldl (fun m h' => dictSet m h'.name (f h')) m0) k).isSome := by
  induction hs generalizing m0 with
  | nil =>
      rcases h with h | h
      · cases h
      · exact h
  | cons a as ih =>
      rw [List.foldl_cons]
      refine ih _ ?_
      rcases h with h | h
      · rw [List.map_cons] at h
        rcases List.mem_cons.mp h with heq | hmem
        · right
          rw [heq, dictGet_dictSet_self]
          rfl
        · left
          exact hmem
      · right
        exact dictGet_isSome_dictSet _ _ _ _ h

/-- `Hasher.update` never changes a hasher's `name`. -/
theorem hasher_update_name (sha1f : Bytes → Bytes) (h : Hasher) (buf : Bytes) :
    (h.update sha1f buf).name = h.name := by
  cases h <;> rfl

/-- Feeding buffers to the hasher list preserves the list of names. -/
theorem foldl_update_names (sha1f : Bytes → Bytes) (bufs : List Bytes)
    (hs : List Hasher) :
    ((bufs.foldl (fun hs' buf => hs'.map (fun h => h.update sha1f buf)) hs).map
        Hasher.name) = hs.map Hasher.name := by
  induction bufs generalizing hs with
  | nil => rfl
  | cons b bs ih =>
      rw [List.foldl_cons, ih, List.map_map]
      congr 1
      funext h
      exact hasher_update_name sha1f h b

/-- The digest-map key each content variant reads in `_read_value`. -/
def digestKey : TSKind → PyStr
  | .sha1 => sha1Name
  | _ => gcidName

/-- Each content set's key is among the names of the hashers built for the
content set list. -/
theorem digestKey_mem_names (l : List TestSet)
    (hmem : ∀ ts ∈ l, ts.kind = .sha1 ∨ ts.kind = .gcid) :
    ∀ ts ∈ l, digestKey ts.kind ∈ (l.filterMap TestSet.getContentHasher).map Hasher.name := by
  induction l with
  | nil => intro ts h; cases h
  | cons a as ih =>
      intro ts hts
      have ha := hmem a (List.mem_cons_self a as)
      rcases List.mem_cons.mp hts with heq | hmem'
      · subst heq
        rcases ha with hk | hk <;>
          simp [List.filterMap_cons, TestSet.getContentHasher, hk, digestKey, Hasher.name]
      · have hrec := ih (fun t ht => hmem t (List.mem_cons_of_mem a ht)) ts hmem'
        rcases ha with hk | hk <;>
        · simp only [List.filterMap_cons, TestSet.getContentHasher, hk, List.map_cons,
            List.mem_cons]
          right
          exact hrec

/-- C8: whenever filling the digests succeeds, every content-based set finds
its algorithm's digest in the produced context: `_read_value`, `test` and
`add` never raise `KeyError` there — the `MissingDigest` failure is
unreachable through the evaluator's metadata-then-content sequencing. -/
theorem missing_digest_unreachable (sha1f : Bytes → Bytes) (pieceSize : Nat → Nat)
    (fs : PyStr → Option Bytes) (tss : TestSets) (path : PyStr)
    (ctx' : TestContext)
    (hfill : tss.contextFillHashs sha1f pieceSize fs ⟨path, []⟩ = .ok ctx') :
    ∀ ts ∈ tss.contentTestsSets,
      (ts.readValue ctx').isSome ∧ (ts.test ctx').isSome ∧ (ts.add ctx').isSome := by
  intro ts hts
  have hkind := content_kind tss ts hts
  have hkey : (dictGet ctx'.hashs (digestKey ts.kind)).isSome := by
    by_cases hemp : tss.contentTestsSets = []
    · rw [hemp] at hts; cases hts
    · rw [TestSets.contextFillHashs, if_neg hemp] at hfill
      dsimp only at hfill
      cases hcol : collectBufSizes pieceSize fs tss.contentTestsSets path with
      | error e => rw [hcol, except_bind_error] at hfill; cases hfill
      | ok l =>
          rw [hcol, except_bind_ok] at hfill
          cases hpick : pickBufSize l with
          | error e => rw [hpick, except_bind_error] at hfill; cases hfill
          | ok bufSize =>
              rw [hpick, except_bind_ok,
                hashers_mapM_eq _ (fun t ht => content_kind tss t ht),
                except_bind_ok] at hfill
              cases hfs : fs path with
              | none => rw [hfs] at hfill; cases hfill
              | some content =>
                  rw [hfs] at hfill
                  injection hfill with hctx
                  subst hctx
                  refine dictGet_foldl_isSome _ _ _ _ (Or.inl ?_)
                  rw [foldl_update_names]
                  exact digestKey_mem_names _ (fun t ht => content_kind tss t ht) ts hts
  have hrv : (ts.readValue ctx').isSome := by
    rcases hkind with hk | hk
    · rw [hk] at hkey
      simp only [digestKey] at hkey
      simp only [TestSet.readValue, hk]
      cases hget : dictGet ctx'.hashs sha1Name with
      | none => rw [hget] at hkey; cases hkey
      | some v => rfl
    · rw [hk] at hkey
      simp only [digestKey] at hkey
      simp only [TestSet.readValue, hk]
      cases hget : dictGet ctx'.hashs gcidName with
      | none => rw [hget] at hkey; cases hkey
      | some v => rfl
  refine ⟨hrv, ?_, ?_⟩
  · rw [TestSet.test]
    cases hr : ts.readValue ctx' with
    | none => rw [hr] at hrv; cases hrv
    | some v => rfl
  · rw [TestSet.add]
    cases hr : ts.readValue ctx' with
    | none => rw [hr] at hrv; cases hrv
    | some v => rfl

/-- Witness for C8: one sha1 set over a readable two-byte file; the digest is
present, so `test` and `add` are defined on the filled context. -/
theorem missing_digest_unreachable_witness :
    ((TestSet.make .sha1 (pyOfString ("s")) []).readValue
        ⟨pyOfString ("/tmp/w"), [(sha1Name, pyOfString ("02"))]⟩).isSome
    ∧ ((TestSet.make .sha1 (pyOfString ("s")) []).test
        ⟨pyOfString ("/tmp/w"), [(sha1Name, pyOfString ("02"))]⟩).isSome
    ∧ ((TestSet.make .sha1 (pyOfString ("s")) []).add
        ⟨pyOfString ("/tmp/w"), [(sha1Name, pyOfString ("02"))]⟩).isSome :=
  missing_digest_unreachable (fun b => [b.length]) (fun _ => 2)
    (fun _ => some [7, 8]) ⟨[TestSet.make .sha1 (pyOfString ("s")) []]⟩
    (pyOfString ("/tmp/w")) ⟨pyOfString ("/tmp/w"), [(sha1Name, pyOfString ("02"))]⟩
    rfl (TestSet.make .sha1 (pyOfString ("s")) []) (by decide)

theorem pyLower1_idem (n : Nat) : pyLower1 (pyLower1 n) = pyLower1 n := by
  unfold pyLower1
  split
  · rw [if_neg (by omega)]
  · rfl

theorem pyLower_idem (s : PyStr) : pyLower (pyLower s) = pyLower s := by
  simp only [pyLower, List.map_map]
  exact List.map_congr_left (fun n _ => pyLower1_idem n)

theorem pyIsSpace_eq_false_of_ge (n : Nat) (h : 65 ≤ n) : pyIsSpace n = false := by
  unfold pyIsSpace
  simp only [Bool.or_eq_false_iff, decide_eq_false_iff_not]
  omega

theorem pyIsSpace_pyLower1 (n : Nat) : pyIsSpace (pyLower1 n) = pyIsSpace n := by
  unfold pyLower1
  split
  · next h => rw [pyIsSpace_eq_false_of_ge _ (by omega), pyIsSpace_eq_false_of_ge _ (by omega)]
  · rfl

/-- `strip` and `lower` commute (lower-casing never creates or destroys
whitespace). -/
theorem pyStrip_pyLower (s : PyStr) : pyStrip (pyLower s) = pyLower (pyStrip s) := by
  have hcomp : pyIsSpace ∘ pyLower1 = pyIsSpace := funext pyIsSpace_pyLower1
  simp only [pyStrip, pyLower, List.dropWhile_map, hcomp, ← List.map_reverse]

theorem pyLower_eq_nil_iff (s : PyStr) : pyLower s = [] ↔ s = [] := by
  simp [pyLower]

theorem image_pyLower_erase_nil (S : Finset PyStr) :
    (S.image pyLower).erase [] = (S.erase []).image pyLower := by
  ext x
  simp only [Finset.mem_erase, Finset.mem_image]
  constructor
  · rintro ⟨hx, y, hy, hlow⟩
    refine ⟨y, ⟨?_, hy⟩, hlow⟩
    intro h0
    subst h0
    exact hx (by rw [← hlow, pyLower_eq_nil_iff])
  · rintro ⟨y, ⟨hy0, hy⟩, hlow⟩
    refine ⟨?_, y, hy, hlow⟩
    intro h0
    rw [h0] at hlow
    exact hy0 ((pyLower_eq_nil_iff y).mp hlow)

/-- Lower-casing the seed lines does not change the accepted set of a
lower-casing variant. -/
theorem parpareSet_lower_invariant (lines : List PyStr) :
    (parpareSetBase (lines.map pyLower)).image pyLower
      = (parpareSetBase lines).image pyLower := by
  unfold parpareSetBase
  have h1 : (lines.map pyLower).map pyStrip = (lines.map pyStrip).map pyLower := by
    simp only [List.map_map]
    exact List.map_congr_left (fun s _ => pyStrip_pyLower s)
  have htf : ((lines.map pyStrip).map pyLower).toFinset
      = (lines.map pyStrip).toFinset.image pyLower := by
    ext x
    simp
  rw [h1, htf, image_pyLower_erase_nil, Finset.image_image]
  have h2 : pyLower ∘ pyLower = pyLower := funext pyLower_idem
  rw [h2]

theorem parpareSet_sha1_lower (lines : List PyStr) :
    parpareSet .sha1 (lines.map pyLower) = parpareSet .sha1 lines := by
  show (parpareSetBase (lines.map pyLower)).image pyLower
      = (parpareSetBase lines).image pyLower
  exact parpareSet_lower_invariant lines

theorem parpareSet_gcid_lower (lines : List PyStr) :
    parpareSet .gcid (lines.map pyLower) = parpareSet .gcid lines := by
  show (parpareSetBase (lines.map pyLower)).image pyLower
      = (parpareSetBase lines).image pyLower
  exact parpareSet_lower_invariant lines

/-- C10: the SHA-1 and gcid content sets lower-case every seed at construction
and compare against lower-cased hex digests, so seeds in any case behave
exactly like their lower-cased forms: `test` is unchanged when every seed line
is replaced by its lower-cased form, on every context. -/
theorem digest_seed_case_insensitive :
    (∀ nm lines ctx, (TestSet.make .sha1 nm lines).test ctx
        = (TestSet.make .sha1 nm (lines.map pyLower)).test ctx)
    ∧ (∀ nm lines ctx, (TestSet.make .gcid nm lines).test ctx
        = (TestSet.make .gcid nm (lines.map pyLower)).test ctx) := by
  constructor
  · intro nm lines ctx
    simp only [TestSet.test, TestSet.make, parpareSet_sha1_lower]
  · intro nm lines ctx
    simp only [TestSet.test, TestSet.make, parpareSet_gcid_lower]

theorem except_map_ok {α β ε : Type} (a : α) (f : α → β) :
    (Except.ok a : Except ε α).map f = .ok (f a) := rfl

theorem except_map_error {α β ε : Type} (e : ε) (f : α → β) :
    (Except.error e : Except ε α).map f = .error e := rfl

theorem readValue_kind_congr (a b : TestSet) (ctx : TestContext)
    (h : a.kind = b.kind) : a.readValue ctx = b.readValue ctx := by
  rw [TestSet.readValue, TestSet.readValue, h]

theorem isTestContent_kind_congr (a b : TestSet) (h : a.kind = b.kind) :
    a.isTestContent = b.isTestContent := by
  rw [TestSet.isTestContent, TestSet.isTestContent, h]

theorem getBufferSize_kind_congr (pieceSize : Nat → Nat) (fs : PyStr → Option Bytes)
    (path : PyStr) (a b : TestSet) (h : a.kind = b.kind) :
    a.getBufferSize pieceSize fs path = b.getBufferSize pieceSize fs path := by
  rw [TestSet.getBufferSize, TestSet.getBufferSize, h]

theorem getContentHasher_kind_congr (a b : TestSet) (h : a.kind = b.kind) :
    a.getContentHasher = b.getContentHasher := by
  rw [TestSet.getContentHasher, TestSet.getContentHasher, h]

/-- A successful `add` leaves class and accepted set unchanged, and a second
`add` of the same derived value is the identity. -/
theorem add_self_props (a b : TestSet) (ctx : TestContext) (h : a.add ctx = some b) :
    b.kind = a.kind ∧ b.dataset = a.dataset ∧ b.add ctx = some b := by
  rw [TestSet.add] at h
  cases hv : a.readValue ctx with
  | none => rw [hv] at h; cases h
  | some v =>
      rw [hv, Option.map_some'] at h
      injection h with h
      by_cases hmem : v ∈ a.dataset
      · rw [if_pos hmem] at h
        subst h
        refine ⟨rfl, rfl, ?_⟩
        rw [TestSet.add, hv, Option.map_some', if_pos hmem]
      · rw [if_neg hmem] at h
        subst h
        refine ⟨rfl, rfl, ?_⟩
        rw [TestSet.add,
          readValue_kind_congr { a with addingRows := insert v a.addingRows } a ctx rfl,
          hv, Option.map_some', if_neg hmem]
        congr 2
        exact Finset.insert_idem v a.addingRows

theorem addList_forall₂ (ctx : TestContext) :
    ∀ (l l' : List TestSet), addList ctx l = .ok l' →
      List.Forall₂ (fun a b => a.add ctx = some b) l l' := by
  intro l
  induction l with
  | nil =>
      intro l' h
      rw [addList] at h
      injection h with h
      subst h
      exact .nil
  | cons a as ih =>
      intro l' h
      rw [addList] at h
      cases hv : a.add ctx with
      | none => rw [hv] at h; cases h
      | some b =>
          rw [hv] at h
          dsimp only at h
          cases hrest : addList ctx as with
          | error e => rw [hrest, except_map_error] at h; cases h
          | ok bs =>
              rw [hrest, except_map_ok] at h
              injection h with h
              subst h
              exact .cons hv (ih bs hrest)

theorem addList_self (ctx : TestContext) (l : List TestSet)
    (h : ∀ ts ∈ l, ts.add ctx = some ts) : addList ctx l = .ok l := by
  induction l with
  | nil => rfl
  | cons a as ih =>
      rw [addList, h a (List.mem_cons_self a as),
        ih (fun t ht => h t (List.mem_cons_of_mem a ht))]
      rfl

theorem forall₂_kind_of_add (ctx : TestContext) (l l' : List TestSet)
    (h : List.Forall₂ (fun a b => a.add ctx = some b) l l') :
    List.Forall₂ (fun a b => a.kind = b.kind) l l' := by
  induction h with
  | nil => exact .nil
  | cons hab _ ih => exact .cons ((add_self_props _ _ _ hab).1.symm) ih

theorem forall₂_mem_right {R : TestSet → TestSet → Prop} :
    ∀ (l l' : List TestSet), List.Forall₂ R l l' → ∀ b ∈ l', ∃ a ∈ l, R a b := by
  intro l l' h
  induction h with
  | nil => intro b hb; cases hb
  | cons hab _ ih =>
      intro b hb
      rcases List.mem_cons.mp hb with heq | hb'
      · exact ⟨_, List.mem_cons_self _ _, heq ▸ hab⟩
      · obtain ⟨a, ha, hr⟩ := ih b hb'
        exact ⟨a, List.mem_cons_of_mem _ ha, hr⟩

theorem forall₂_filter_congr (p : TestSet → Bool)
    (hp : ∀ a b : TestSet, a.kind = b.kind → p a = p b) :
    ∀ (l l' : List TestSet), List.Forall₂ (fun a b => a.kind = b.kind) l l' →
      List.Forall₂ (fun a b => a.kind = b.kind) (l.filter p) (l'.filter p) := by
  intro l l' h
  induction h with
  | nil => exact .nil
  | cons hab hrest ih =>
      rename_i a b as bs
      by_cases hpa : p a = true
      · rw [List.filter_cons_of_pos hpa,
          List.filter_cons_of_pos (by rw [← hp a b hab]; exact hpa)]
        exact .cons hab ih
      · rw [List.filter_cons_of_neg (by simpa using hpa),
          List.filter_cons_of_neg (by rw [← hp a b hab]; simpa using hpa)]
        exact ih

theorem mapM_congr_forall₂ {β : Type} (g : TestSet → Except RmError β)
    (hg : ∀ a b : TestSet, a.kind = b.kind → g a = g b) :
    ∀ (l l' : List TestSet), List.Forall₂ (fun a b => a.kind = b.kind) l l' →
      l.mapM g = l'.mapM g := by
  intro l l' h
  induction h with
  | nil => rfl
  | cons hab _ ih => rw [List.mapM_cons, List.mapM_cons, hg _ _ hab, ih]

/-- Filling the digests only looks at the classes of the content sets, the
path and the file system — not at their accepted or observed values. -/
theorem fill_congr (sha1f : Bytes → Bytes) (pieceSize : Nat → Nat)
    (fs : PyStr → Option Bytes) (A B : TestSets) (ctx : TestContext)
    (h : List.Forall₂ (fun a b => a.kind = b.kind)
      A.contentTestsSets B.contentTestsSets) :
    A.contextFillHashs sha1f pieceSize fs ctx
      = B.contextFillHashs sha1f pieceSize fs ctx := by
  have hcol : collectBufSizes pieceSize fs A.contentTestsSets ctx.path
      = collectBufSizes pieceSize fs B.contentTestsSets ctx.path := by
    rw [collectBufSizes, collectBufSizes,
      mapM_congr_forall₂ _
        (fun a b hab => getBufferSize_kind_congr pieceSize fs ctx.path a b hab) _ _ h]
  have hhash : (A.contentTestsSets.mapM (fun ts =>
        match ts.getContentHasher with
        | some h' => Except.ok h'
        | none => Except.error RmError.notImplemented) : Except RmError (List Hasher))
      = B.contentTestsSets.mapM (fun ts =>
        match ts.getContentHasher with
        | some h' => Except.ok h'
        | none => Except.error RmError.notImplemented) :=
    mapM_congr_forall₂ _
      (fun a b hab => by rw [getContentHasher_kind_congr a b hab]) _ _ h
  rw [TestSets.contextFillHashs, TestSets.contextFillHashs]
  by_cases hemp : A.contentTestsSets = []
  · have hemp' : B.contentTestsSets = [] := by
      rw [hemp] at h
      exact List.forall₂_nil_left_iff.mp h

    rw [if_pos hemp, if_pos hemp']
  · have hemp' : B.contentTestsSets ≠ [] := by
      intro h0
      rw [h0] at h
      exact hemp (List.forall₂_nil_right_iff.mp h)
    rw [if_neg hemp, if_neg hemp']
    simp only [hcol, hhash]

/-- C7: observing the same unchanged file twice is idempotent — the second
`TestSets.add` returns exactly the state produced by the first, so every
pattern set's observed values are those of a single call. -/
theorem observe_idempotent (sha1f : Bytes → Bytes) (pieceSize : Nat → Nat)
    (fs : PyStr → Option Bytes) (tss tss' : TestSets) (path : PyStr)
    (h : tss.add sha1f pieceSize fs path = .ok tss') :
    tss'.add sha1f pieceSize fs path = .ok tss' := by
  rw [TestSets.add] at h
  by_cases hne : tss.testsSets = []
  · rw [if_pos hne] at h; cases h
  rw [if_neg hne] at h
  cases hfill : tss.contextFillHashs sha1f pieceSize fs ⟨path, []⟩ with
  | error e => rw [hfill, except_bind_error] at h; cases h
  | ok ctx' =>
      rw [hfill, except_bind_ok] at h
      cases hadd : addList ctx' tss.testsSets with
      | error e => rw [hadd, except_bind_error] at h; cases h
      | ok sets' =>
          rw [hadd, except_bind_ok] at h
          injection h with h
          subst h
          have hrel := addList_forall₂ ctx' _ _ hadd
          have hkinds : List.Forall₂ (fun a b => a.kind = b.kind) tss.testsSets sets' :=
            forall₂_kind_of_add ctx' _ _ hrel
          have hne' : (TestSets.mk sets').testsSets ≠ [] := by
            intro h0
            apply hne
            have hlen := hkinds.length_eq
            rw [show (TestSets.mk sets').testsSets = sets' from rfl] at h0
            rw [h0] at hlen
            exact List.length_eq_zero.mp hlen
          have hcf : List.Forall₂ (fun a b => a.kind = b.kind)
              tss.contentTestsSets (TestSets.mk sets').contentTestsSets :=
            forall₂_filter_congr _
              (fun a b hab => isTestContent_kind_congr a b hab) _ _ hkinds
          have hfill' : (TestSets.mk sets').contextFillHashs sha1f pieceSize fs ⟨path, []⟩
              = .ok ctx' := by
            rw [← fill_congr sha1f pieceSize fs tss _ _ hcf]
            exact hfill
          have hself : ∀ b ∈ sets', b.add ctx' = some b := by
            intro b hb
            obtain ⟨a, _, hab⟩ := forall₂_mem_right _ _ hrel b hb
            exact (add_self_props a b ctx' hab).2.2
          rw [TestSets.add, if_neg hne', hfill', except_bind_ok,
            addList_self ctx' sets' hself, except_bind_ok]

/-- Witness for C7: first `add` of `/tmp/x.txt` on a fresh name set observes
`x.txt`; the second `add` reproduces the same state. -/
theorem observe_idempotent_witness :
    TestSets.add (fun b => [b.length]) (fun _ => 2) (fun _ => none)
      ⟨[TestSet.mk .name (pyOfString ("n")) ∅ {pyOfString ("x.txt")}]⟩
      (pyOfString ("/tmp/x.txt"))
      = .ok ⟨[TestSet.mk .name (pyOfString ("n")) ∅ {pyOfString ("x.txt")}]⟩ :=
  observe_idempotent _ _ _ ⟨[TestSet.make .name (pyOfString ("n")) []]⟩ _ _ rfl
